import Mathlib

/-!
Verification development for a Chromium snapshot consisting of
`base/win_util.cc`, the `TabStripModel` tab-collection header, and
`extension_bookmark_manager_api.cc`.

The pure helpers (`UserAccountControlIsEnabled`, `GetNodesFromArguments`,
the `TabContentsData` record) are embedded directly from the source.
The `TabStripModel` operation bodies are not part of the snapshot (only
the class header with its documentation is), so the collection state
machine is modelled from the specification and each such definition is
marked accordingly in its doc comment.
-/

namespace ChromiumModel

/-! ## win_util.cc -/

/-- Embeds `win_util::UserAccountControlIsEnabled`.  The registry read
`RegKey(HKLM, ...Policies\System).ReadValueDW("EnableLUA")` is modelled by the
`readEnableLUA` argument: `none` when the read fails, `some v` when it yields
the DWORD `v`.  The body mirrors the source: a failed read returns `true`,
otherwise the result is `uac_enabled != 0`. -/
def UserAccountControlIsEnabled (readEnableLUA : Option Nat) : Bool :=
  match readEnableLUA with
  | none => true
  | some uac_enabled => uac_enabled != 0

/-! ## extension_bookmark_manager_api.cc -/

/-- Model of `base::Value` as used by `GetNodesFromArguments`: a value is a
string, a list of values, or something else (on which `GetString`/`GetList`
fail). -/
inductive BmValue where
  | str (s : String)
  | list (l : List BmValue)
  | other
deriving Repr

/-- `ListValue::GetList(0, &ids)`: succeeds iff the value at index 0 exists and
is a list. -/
def getList0 (args : List BmValue) : Option (List BmValue) :=
  match args.head? with
  | some (BmValue.list l) => some l
  | _ => none

/-- The loop body of `GetNodesFromArguments` over the remaining ids: for each
element, `GetString` must succeed (the value is a string), `StringToInt64`
must parse it (modelled by the `parse` argument), and `model->GetNodeByID`
must resolve it (modelled by the `getNodeByID` argument); any failure aborts
with `none`, otherwise each node is appended in order. -/
def getNodesLoop (getNodeByID : Int → Option Nat) (parse : String → Option Int) :
    List BmValue → Option (List Nat)
  | [] => some []
  | v :: rest =>
    match v with
    | BmValue.str s =>
      match parse s with
      | some id =>
        match getNodeByID id with
        | some node => (getNodesLoop getNodeByID parse rest).map (fun ns => node :: ns)
        | none => none
      | none => none
    | _ => none

/-- Embeds `GetNodesFromArguments(model, args, nodes)`.  Bookmark nodes are
identified by `Nat`; `getNodeByID` models `BookmarkModel::GetNodeByID` and
`parse` models `StringToInt64`.  Returns `none` where the source returns
`false`, and `some nodes` (the appended output vector) where it returns
`true`. -/
def GetNodesFromArguments (getNodeByID : Int → Option Nat)
    (parse : String → Option Int) (args : List BmValue) : Option (List Nat) :=
  match getList0 args with
  | none => none
  | some ids =>
    if ids.length = 0 then none
    else getNodesLoop getNodeByID parse ids

/-! ## TabStripModel: per-tab record (from the header, inline code) -/

/-- Models the externally owned `TabContents`/`NavigationController` pair a tab
record points at: `cid` is the controller identity, `is_app` is
`TabContents::is_app()`, and `closesImmediately` models whether the delegate
lets the tab close synchronously (no unload handler / confirmation). -/
structure ContentUnit where
  cid : Nat
  is_app : Bool
  closesImmediately : Bool
deriving Repr, DecidableEq

/-- Embeds `TabStripModel::TabContentsData`.  `group` and `opener` are weak
references to controller identities (`none` models `NULL`). -/
structure TabContentsData where
  contents : ContentUnit
  group : Option Nat
  opener : Option Nat
  reset_group_on_select : Bool
  pinned : Bool
  blocked : Bool
deriving Repr, DecidableEq

/-- Embeds `TabContentsData::SetGroup`: sets `group` and `opener` to the same
value. -/
def TabContentsData.SetGroup (d : TabContentsData) (a_group : Option Nat) :
    TabContentsData :=
  { d with group := a_group, opener := a_group }

/-- Embeds `TabContentsData::ForgetOpener`: clears only `opener`. -/
def TabContentsData.ForgetOpener (d : TabContentsData) : TabContentsData :=
  { d with opener := none }

/-- Embeds the `TabContentsData` constructor: initializes
`reset_group_on_select`, `pinned`, `blocked` to `false` and calls
`SetGroup(NULL)`. -/
def mkTabContentsData (a_contents : ContentUnit) : TabContentsData :=
  TabContentsData.SetGroup
    { contents := a_contents
      group := none
      opener := none
      reset_group_on_select := false
      pinned := false
      blocked := false } none

/-- `IsMiniTab` on a record: `IsTabPinned(index) || IsAppTab(index)`. -/
def TabContentsData.is_mini (d : TabContentsData) : Bool :=
  d.pinned || d.contents.is_app

/-! ## TabStripModel: collection state

The snapshot contains only the class header (declarations and their
documentation); the operation bodies are modelled from the specification,
as noted on each definition. -/

/-- `TabStripModel::kNoTab`. -/
def kNoTab : Int := -1

/-- The collection state: the ordered record vector `contents_data_` and the
selection cursor `selected_index_` (`kNoTab` when empty). -/
structure TabStripModel where
  contents_data : List TabContentsData
  selected_index : Int
deriving Repr, DecidableEq

/-- `count()`. -/
def TabStripModel.count (m : TabStripModel) : Nat :=
  m.contents_data.length

/-- Events observers are notified of; the claims only inspect the moved
event, so only the move operation reports its events. -/
inductive TabStripEvent where
  | TabMoved (fromIdx toIdx : Nat)
deriving Repr, DecidableEq

/-- Modelled from the spec (header doc of `IndexOfFirstNonMiniTab`): the index
of the first tab that is not a mini-tab; `count()` if all tabs are mini,
`0` if none are. -/
def IndexOfFirstNonMiniTab (m : TabStripModel) : Nat :=
  m.contents_data.findIdx (fun d => !d.is_mini)

/-- Modelled from the spec (§4.1 and the header doc of
`ConstrainInsertionIndex`): clamp a proposed insertion index into
`[0, firstNonMini]` for a mini tab and into `[firstNonMini, count]`
otherwise. -/
def ConstrainInsertionIndex (m : TabStripModel) (index : Nat) (mini_tab : Bool) :
    Nat :=
  if mini_tab then min index (IndexOfFirstNonMiniTab m)
  else min m.count (max index (IndexOfFirstNonMiniTab m))

/-- The controller identity of the currently selected tab, if any. -/
def selectedCid (m : TabStripModel) : Option Nat :=
  match m.selected_index with
  | Int.ofNat n => (m.contents_data[n]?).map (fun d => d.contents.cid)
  | _ => none

/-- Modelled from the spec (§4.4): the unchecked move body
(`MoveTabContentsAtImpl`): the record is erased from `index`, reinserted at
`to_position`, and the selection cursor follows the moved tab
(`select_after_move` or it was selected) or shifts by one slot when the move
crosses it. -/
def MoveTabContentsAtImpl (m : TabStripModel) (index to_position : Nat)
    (select_after_move : Bool) : TabStripModel :=
  match m.contents_data[index]? with
  | none => m
  | some moved_data =>
    let data := (m.contents_data.eraseIdx index).insertIdx to_position moved_data
    let sel :=
      if select_after_move || (index : Int) = m.selected_index then
        (to_position : Int)
      else if (index : Int) < m.selected_index ∧
          m.selected_index ≤ (to_position : Int) then
        m.selected_index - 1
      else if (to_position : Int) ≤ m.selected_index ∧
          m.selected_index < (index : Int) then
        m.selected_index + 1
      else m.selected_index
    ⟨data, sel⟩

/-- Modelled from the spec (§4.4 and header lines 433-441): `MoveTabContentsAt`
validates both indices, then rejects the request as a complete no-op (no state
change, no event) when the move would place a mini tab among non-mini tabs or
vice versa, i.e. when exactly one of the two positions lies below
`IndexOfFirstNonMiniTab`; otherwise it moves the record and reports a single
moved event. -/
def MoveTabContentsAt (m : TabStripModel) (index to_position : Nat)
    (select_after_move : Bool) : TabStripModel × List TabStripEvent :=
  if index < m.count ∧ to_position < m.count then
    if index = to_position then (m, [])
    else
      if (index < IndexOfFirstNonMiniTab m ∧
            IndexOfFirstNonMiniTab m ≤ to_position) ∨
          (to_position < IndexOfFirstNonMiniTab m ∧
            IndexOfFirstNonMiniTab m ≤ index) then
        (m, [])
      else
        (MoveTabContentsAtImpl m index to_position select_after_move,
         [TabStripEvent.TabMoved index to_position])
  else (m, [])

/-- Modelled from the spec (§4.1): the record `InsertTabContentsAt` creates.
It is pinned iff `ADD_PINNED` was given or the content is an app (app tabs
are forced pinned), and it may inherit group/opener from the selected tab
(`ADD_INHERIT_GROUP` winning over `ADD_INHERIT_OPENER`). -/
def insertRecord (m : TabStripModel) (c : ContentUnit)
    (addPinned inheritGroup inheritOpener : Bool) : TabContentsData :=
  let d0 := { mkTabContentsData c with pinned := c.is_app || addPinned }
  if inheritGroup ∧ (selectedCid m).isSome then d0.SetGroup (selectedCid m)
  else if inheritOpener ∧ (selectedCid m).isSome then
    { d0 with opener := selectedCid m }
  else d0

/-- Modelled from the spec (§4.1): the constrained index a new tab actually
lands at. -/
def insertLanding (m : TabStripModel) (index : Nat) (c : ContentUnit)
    (addPinned : Bool) : Nat :=
  ConstrainInsertionIndex m index (c.is_app || addPinned)

/-- Modelled from the spec (§4.1): `InsertTabContentsAt` without
`ADD_FORCE_INDEX`.  The new record lands at the constrained index; the
selection cursor shifts right when the insertion is at or before it, and
moves to the new tab when `ADD_SELECTED` is given. -/
def InsertTabContentsAt (m : TabStripModel) (index : Nat) (c : ContentUnit)
    (addPinned addSelected inheritGroup inheritOpener : Bool) : TabStripModel :=
  let i := insertLanding m index c addPinned
  let data := m.contents_data.insertIdx i
    (insertRecord m c addPinned inheritGroup inheritOpener)
  let sel0 :=
    if (i : Int) ≤ m.selected_index then m.selected_index + 1
    else m.selected_index
  ⟨data, if addSelected then (i : Int) else sel0⟩

/-- Modelled from the spec (§4.5, invariant 2): `SetTabPinned` is a no-op when
the flag does not change; unpinning an app tab is a no-op; a non-app tab whose
mini-ness changes is relocated to the boundary of the region it now belongs to
(pinned: to `firstNonMini`; unpinned: to `firstNonMini - 1`), the boundary
being computed before the flag changes. -/
def SetTabPinned (m : TabStripModel) (index : Nat) (pinned : Bool) :
    TabStripModel :=
  match m.contents_data[index]? with
  | none => m
  | some d =>
    if d.pinned = pinned then m
    else if d.contents.is_app then
      if pinned = false then m
      else { m with contents_data :=
              m.contents_data.set index { d with pinned := pinned } }
    else
      let f := IndexOfFirstNonMiniTab m
      let m' := { m with contents_data :=
                    m.contents_data.set index { d with pinned := pinned } }
      if pinned then
        if index ≠ f then MoveTabContentsAtImpl m' index f false else m'
      else
        if index + 1 ≠ f then MoveTabContentsAtImpl m' index (f - 1) false
        else m'

/-- Modelled from the spec (§6): `SetTabBlocked` flips the record's blocked
flag in place. -/
def SetTabBlocked (m : TabStripModel) (index : Nat) (blocked : Bool) :
    TabStripModel :=
  match m.contents_data[index]? with
  | none => m
  | some d =>
    { m with contents_data := m.contents_data.set index { d with blocked := blocked } }

/-- Modelled from the spec (§6): `SelectTabContentsAt` moves the selection
cursor to a valid index. -/
def SelectTabContentsAt (m : TabStripModel) (index : Nat) : TabStripModel :=
  if index < m.count then { m with selected_index := (index : Int) } else m

/-- Modelled from the spec (§3 lifecycle, header lines 417-419):
`ReplaceTabContentsAt` releases the slot's old content and hands the record to
the new content; `pinned`, `blocked`, `group`, `opener` of the slot are
untouched. -/
def ReplaceTabContentsAt (m : TabStripModel) (index : Nat) (new_contents : ContentUnit) :
    TabStripModel :=
  match m.contents_data[index]? with
  | none => m
  | some d =>
    { m with contents_data :=
        m.contents_data.set index { d with contents := new_contents } }

/-- Modelled from the spec (`ForgetGroup` in the header): clears the record's
group and opener. -/
def ForgetGroupAt (m : TabStripModel) (index : Nat) : TabStripModel :=
  match m.contents_data[index]? with
  | none => m
  | some d =>
    { m with contents_data :=
        m.contents_data.set index ((d.SetGroup none).ForgetOpener) }

/-- Modelled from the spec (`ForgetAllOpeners`): clears every record's
opener. -/
def ForgetAllOpeners (m : TabStripModel) : TabStripModel :=
  { m with contents_data := m.contents_data.map TabContentsData.ForgetOpener }

/-! ## OrderController: next-selection after removal -/

/-- Modelled from the spec (§4.3): the index of the record nearest to `i`
satisfying `p`, preferring the next match at an index greater than `i` in
sequence order, else the nearest preceding match; `i` itself is never
considered. -/
def nearestMatch (tabs : List TabContentsData) (i : Nat)
    (p : TabContentsData → Bool) : Option Nat :=
  match (tabs.drop (i + 1)).findIdx? p with
  | some k => some (i + 1 + k)
  | none =>
    match ((tabs.take i).reverse).findIdx? p with
    | some k => some (i - 1 - k)
    | none => none

/-- Modelled from the spec (§4.3 step 1): among the other tabs sharing the
removed tab's `group` reference, the nearest to `i`, preferring the next tab
at an index greater than `i` in sequence order, else the nearest preceding
one.  `none` when the removed tab has no group or no other tab shares it. -/
def nextGroupPeer (tabs : List TabContentsData) (i : Nat) : Option Nat :=
  match (tabs[i]?).bind (fun d => d.group) with
  | none => none
  | some g => nearestMatch tabs i (fun d => d.group == some g)

/-- Modelled from the spec (§4.3 step 2): the live tab the removed tab's
`opener` reference resolves to, i.e. the tab whose controller identity equals
the opener value, nearest to `i` (identities are unique in practice, so the
direction of search is immaterial). -/
def openerTarget (tabs : List TabContentsData) (i : Nat) : Option Nat :=
  match (tabs[i]?).bind (fun d => d.opener) with
  | none => none
  | some o => nearestMatch tabs i (fun d => d.contents.cid == o)

/-- Modelled from the spec (§4.3): the OrderController's next-selection
algorithm for removing the tab at `i`, expressed as a post-removal index:
a group peer first, then the opener's tab, then the tab occupying index `i`
after removal (originally `i+1`, or `i-1` when `i` was last), and `kNoTab`
when the collection becomes empty. -/
def DetermineNewSelectedIndex (tabs : List TabContentsData) (i : Nat) : Int :=
  if tabs.length ≤ 1 then kNoTab
  else
    match nextGroupPeer tabs i with
    | some j => if i < j then (j : Int) - 1 else (j : Int)
    | none =>
      match openerTarget tabs i with
      | some j => if i < j then (j : Int) - 1 else (j : Int)
      | none => if i + 1 < tabs.length then (i : Int) else (i : Int) - 1

/-- Modelled from the spec (§4.2, §4.3): removing the record at `i` (by close
or detach).  When the removed tab was selected the new selection is computed
by the OrderController before the erase; otherwise the cursor shifts left when
the removal was before it; `kNoTab` when the collection becomes empty. -/
def RemoveTabAt (m : TabStripModel) (i : Nat) : TabStripModel :=
  if i < m.count then
    let newTabs := m.contents_data.eraseIdx i
    let sel :=
      if newTabs.isEmpty then kNoTab
      else if m.selected_index = (i : Int) then
        DetermineNewSelectedIndex m.contents_data i
      else if (i : Int) < m.selected_index then m.selected_index - 1
      else m.selected_index
    ⟨newTabs, sel⟩
  else m

/-- Modelled from the spec (§4.2) and header lines 634-642:
one step of `InternalCloseTabs` at the index `i`: a tab whose content cannot
close immediately is skipped and flips the aggregate result to `false`; a tab
that does close is erased and never rolled back. -/
def closeStep (acc : TabStripModel × Bool) (i : Nat) : TabStripModel × Bool :=
  match acc.1.contents_data[i]? with
  | none => acc
  | some d =>
    if d.contents.closesImmediately then (RemoveTabAt acc.1 i, acc.2)
    else (acc.1, false)

/-- Modelled from the spec (§4.2) and header lines 634-642:
`InternalCloseTabs` walks the requested indices (sorted descending by the
caller so earlier removals do not invalidate later indices) with `closeStep`,
starting from an aggregate result of `true`. -/
def InternalCloseTabs (m : TabStripModel) (indices : List Nat) :
    TabStripModel × Bool :=
  indices.foldl closeStep (m, true)

/-- Modelled from the spec and header lines 399-405: `CloseTabContentsAt` is
the batch close of the single index; it returns `true` iff the tab closed
immediately. -/
def CloseTabContentsAt (m : TabStripModel) (index : Nat) :
    TabStripModel × Bool :=
  InternalCloseTabs m [index]

/-! ## Invariants and reachability -/

/-- Spec invariant 1 (and testable property §8 line 1): mini tabs never follow
non-mini tabs; later records' mini-ness implies earlier records'. -/
def Segregated (tabs : List TabContentsData) : Prop :=
  tabs.Pairwise (fun a b => b.is_mini = true → a.is_mini = true)

instance (tabs : List TabContentsData) : Decidable (Segregated tabs) :=
  inferInstanceAs (Decidable (tabs.Pairwise _))

/-- Spec invariant 2: every app tab's pinned flag is set. -/
def AppsPinned (tabs : List TabContentsData) : Prop :=
  ∀ d ∈ tabs, d.contents.is_app = true → d.pinned = true

instance (tabs : List TabContentsData) : Decidable (AppsPinned tabs) :=
  inferInstanceAs (Decidable (∀ d ∈ tabs, _))

/-- The collection states reachable through the public operation surface,
starting from the empty collection.  The replace step carries the side
condition, implied by the spec's slot-identity lifecycle (§3) together with
invariant 2, that swapping in the new content does not change the slot's app
classification (the recently-closed-tab restore path swaps like content for
like). -/
inductive Reachable : TabStripModel → Prop where
  | empty : Reachable ⟨[], kNoTab⟩
  | insert (m index c addPinned addSelected inheritGroup inheritOpener) :
      Reachable m →
      Reachable (InsertTabContentsAt m index c addPinned addSelected
        inheritGroup inheritOpener)
  | close (m indices) : Reachable m → Reachable (InternalCloseTabs m indices).1
  | detach (m index) : Reachable m → Reachable (RemoveTabAt m index)
  | move (m index to_position select_after_move) : Reachable m →
      Reachable (MoveTabContentsAt m index to_position select_after_move).1
  | select (m index) : Reachable m → Reachable (SelectTabContentsAt m index)
  | setPinned (m index pinned) : Reachable m →
      Reachable (SetTabPinned m index pinned)
  | setBlocked (m index blocked) : Reachable m →
      Reachable (SetTabBlocked m index blocked)
  | replace (m index c) : Reachable m →
      (∀ d, m.contents_data[index]? = some d → d.contents.is_app = c.is_app) →
      Reachable (ReplaceTabContentsAt m index c)
  | forgetGroup (m index) : Reachable m → Reachable (ForgetGroupAt m index)
  | forgetOpeners (m) : Reachable m → Reachable (ForgetAllOpeners m)

/-! ## Toolkit: list facts used by the invariant proofs -/

theorem insertIdx_append_of_le {α : Type} (x : α) :
    ∀ (i : Nat) (a b : List α), i ≤ a.length →
      List.insertIdx i x (a ++ b) = List.insertIdx i x a ++ b
  | 0, a, b, _ => by simp
  | i + 1, [], b, h => by simp at h
  | i + 1, y :: a, b, h => by
    simp only [List.cons_append, List.insertIdx_succ_cons,
      insertIdx_append_of_le x i a b (by simpa using h)]

theorem insertIdx_append_of_ge {α : Type} (x : α) :
    ∀ (a b : List α) (i : Nat),
      List.insertIdx (a.length + i) x (a ++ b) = a ++ List.insertIdx i x b
  | [], b, i => by simp
  | y :: a, b, i => by
    have h1 : (y :: a : List α).length + i = (a.length + i) + 1 := by
      simp; omega
    simp only [h1, List.cons_append, List.insertIdx_succ_cons,
      insertIdx_append_of_ge x a b i]

theorem eraseIdx_set_same {α : Type} :
    ∀ (l : List α) (i : Nat) (x : α), (l.set i x).eraseIdx i = l.eraseIdx i
  | [], _, _ => rfl
  | _ :: _, 0, _ => rfl
  | y :: l, i + 1, x => by
    simp only [List.set_cons_succ, List.eraseIdx_cons_succ,
      eraseIdx_set_same l i x]

/-- A segregated list splits into a mini part followed by a non-mini part. -/
theorem segregated_iff_decomp (l : List TabContentsData) :
    Segregated l ↔ ∃ a b, l = a ++ b ∧ (∀ d ∈ a, d.is_mini = true) ∧
      (∀ d ∈ b, d.is_mini = false) := by
  constructor
  · intro h
    induction l with
    | nil => exact ⟨[], [], rfl, by simp, by simp⟩
    | cons d l ih =>
      rw [Segregated, List.pairwise_cons] at h
      obtain ⟨a, b, rfl, ha, hb⟩ := ih h.2
      by_cases hd : d.is_mini = true
      · refine ⟨d :: a, b, rfl, ?_, hb⟩
        intro x hx
        rcases List.mem_cons.1 hx with rfl | hx
        · exact hd
        · exact ha x hx
      · cases a with
        | nil =>
          refine ⟨[], d :: b, rfl, by simp, ?_⟩
          intro x hx
          rcases List.mem_cons.1 hx with rfl | hx
          · simpa using hd
          · exact hb x hx
        | cons y a =>
          exact absurd (h.1 y (List.mem_append_left _ (List.mem_cons_self y a))
            (ha y (List.mem_cons_self y a))) hd
  · rintro ⟨a, b, rfl, ha, hb⟩
    rw [Segregated, List.pairwise_append]
    refine ⟨List.pairwise_of_forall_mem_list ?_,
      List.pairwise_of_forall_mem_list ?_, ?_⟩
    · intro x hx y hy _
      exact ha x hx
    · intro x hx y hy hy2
      rw [hb y hy] at hy2
      exact absurd hy2 Bool.false_ne_true
    · intro x hx y hy hy2
      rw [hb y hy] at hy2
      exact absurd hy2 Bool.false_ne_true

/-- On a decomposed list, the first-non-mini boundary is the length of the
mini part. -/
theorem findIdx_decomp (a b : List TabContentsData)
    (ha : ∀ d ∈ a, d.is_mini = true) (hb : ∀ d ∈ b, d.is_mini = false) :
    (a ++ b).findIdx (fun d => !d.is_mini) = a.length := by
  induction a with
  | nil =>
    cases b with
    | nil => rfl
    | cons x b => simp [List.findIdx_cons, hb x (List.mem_cons_self x b)]
  | cons x a ih =>
    have hx : x.is_mini = true := ha x (List.mem_cons_self x a)
    simp only [List.cons_append, List.findIdx_cons, hx, Bool.not_true,
      cond_false, List.length_cons]
    rw [ih (fun d hd => ha d (List.mem_cons_of_mem x hd))]

/-- Inserting a mini record anywhere in (or at the end of) the mini region
keeps the list segregated. -/
theorem segregated_insertIdx_mini (l : List TabContentsData)
    (d : TabContentsData) (i : Nat) (hseg : Segregated l)
    (hd : d.is_mini = true)
    (hi : i ≤ l.findIdx (fun r => !r.is_mini)) :
    Segregated (List.insertIdx i d l) := by
  obtain ⟨a, b, rfl, ha, hb⟩ := (segregated_iff_decomp l).1 hseg
  rw [findIdx_decomp a b ha hb] at hi
  rw [insertIdx_append_of_le d i a b hi]
  refine (segregated_iff_decomp _).2 ⟨List.insertIdx i d a, b, rfl, ?_, hb⟩
  intro x hx
  rcases (List.mem_insertIdx hi).1 hx with rfl | hx
  · exact hd
  · exact ha x hx

/-- Inserting a non-mini record anywhere in (or at the end of) the non-mini
region keeps the list segregated. -/
theorem segregated_insertIdx_nonmini (l : List TabContentsData)
    (d : TabContentsData) (i : Nat) (hseg : Segregated l)
    (hd : d.is_mini = false)
    (hi : l.findIdx (fun r => !r.is_mini) ≤ i) :
    Segregated (List.insertIdx i d l) := by
  obtain ⟨a, b, rfl, ha, hb⟩ := (segregated_iff_decomp l).1 hseg
  rw [findIdx_decomp a b ha hb] at hi
  by_cases hlen : i ≤ a.length + b.length
  · have h1 : i = a.length + (i - a.length) := by omega
    rw [h1, insertIdx_append_of_ge d a b (i - a.length)]
    refine (segregated_iff_decomp _).2
      ⟨a, List.insertIdx (i - a.length) d b, rfl, ha, ?_⟩
    intro x hx
    rcases (List.mem_insertIdx (by omega)).1 hx with rfl | hx
    · exact hd
    · exact hb x hx
  · rw [List.insertIdx_of_length_lt _ _ _ (by simpa using by omega)]
    exact hseg

/-- Replacing a record by one of equal mini-ness keeps the list segregated. -/
theorem segregated_set (l : List TabContentsData) (i : Nat)
    (d : TabContentsData) (hseg : Segregated l)
    (hmini : ∀ e, l[i]? = some e → d.is_mini = e.is_mini) :
    Segregated (l.set i d) := by
  rw [Segregated, List.pairwise_iff_getElem] at hseg ⊢
  intro k1 k2 hk1 hk2 hlt
  rw [List.length_set] at hk1 hk2
  rw [List.getElem_set, List.getElem_set]
  have h12 := hseg k1 k2 hk1 hk2 hlt
  by_cases e1 : i = k1
  · subst e1
    rw [if_pos rfl, if_neg (by omega : ¬i = k2)]
    have hm := hmini (l.get ⟨i, hk1⟩) (List.getElem?_eq_getElem hk1)
    rw [hm]
    exact h12
  · by_cases e2 : i = k2
    · subst e2
      rw [if_neg e1, if_pos rfl]
      have hm := hmini (l.get ⟨i, hk2⟩) (List.getElem?_eq_getElem hk2)
      rw [hm]
      exact h12
    · rw [if_neg e1, if_neg e2]
      exact h12

theorem segregated_eraseIdx (l : List TabContentsData) (i : Nat)
    (hseg : Segregated l) : Segregated (l.eraseIdx i) :=
  List.Pairwise.sublist (List.eraseIdx_sublist l i) hseg

/-- Under segregation, a position is below the first-non-mini boundary exactly
when the record there is mini. -/
theorem lt_firstNonMini_iff (l : List TabContentsData) (hseg : Segregated l)
    (k : Nat) (hk : k < l.length) :
    k < l.findIdx (fun r => !r.is_mini) ↔ (l.get ⟨k, hk⟩).is_mini = true := by
  obtain ⟨a, b, rfl, ha, hb⟩ := (segregated_iff_decomp l).1 hseg
  rw [findIdx_decomp a b ha hb]
  constructor
  · intro h
    have : (a ++ b).get ⟨k, hk⟩ = a.get ⟨k, h⟩ := by
      simp only [List.get_eq_getElem]
      exact List.getElem_append_left h
    rw [this]
    exact ha _ (List.getElem_mem h)
  · intro h
    by_contra hcon
    have hge : a.length ≤ k := by omega
    have hkb : k - a.length < b.length := by
      have := List.length_append a b ▸ hk
      omega
    have : (a ++ b).get ⟨k, hk⟩ = b.get ⟨k - a.length, hkb⟩ := by
      simp only [List.get_eq_getElem]
      exact List.getElem_append_right hge
    rw [this, List.get_eq_getElem] at h
    rw [hb _ (List.getElem_mem hkb)] at h
    exact absurd h Bool.false_ne_true

/-! ## Invariant preservation through every public operation -/

/-- Invariants 1 and 2 of the spec, bundled. -/
def Inv (m : TabStripModel) : Prop :=
  Segregated m.contents_data ∧ AppsPinned m.contents_data

theorem moveImpl_contents (m : TabStripModel) (index to_position : Nat)
    (sam : Bool) (hin : index < m.contents_data.length) :
    (MoveTabContentsAtImpl m index to_position sam).contents_data =
      List.insertIdx to_position (m.contents_data.get ⟨index, hin⟩)
        (m.contents_data.eraseIdx index) := by
  unfold MoveTabContentsAtImpl
  rw [List.getElem?_eq_getElem hin]
  rfl

theorem insertRecord_pinned (m : TabStripModel) (c : ContentUnit)
    (p g o : Bool) : (insertRecord m c p g o).pinned = (c.is_app || p) := by
  unfold insertRecord
  split
  · rfl
  · split
    · rfl
    · rfl

theorem insertRecord_contents (m : TabStripModel) (c : ContentUnit)
    (p g o : Bool) : (insertRecord m c p g o).contents = c := by
  unfold insertRecord
  split
  · rfl
  · split
    · rfl
    · rfl

theorem insertRecord_is_mini (m : TabStripModel) (c : ContentUnit)
    (p g o : Bool) : (insertRecord m c p g o).is_mini = (c.is_app || p) := by
  rw [TabContentsData.is_mini, insertRecord_pinned, insertRecord_contents]
  cases c.is_app <;> cases p <;> rfl

/-- Erasing a record and reinserting it on the same side of the mini/non-mini
boundary keeps the list segregated. -/
theorem raw_move_segregated (l : List TabContentsData) (index to_position : Nat)
    (hseg : Segregated l) (hin : index < l.length)
    (hside : (index < l.findIdx (fun r => !r.is_mini) ∧
        to_position < l.findIdx (fun r => !r.is_mini)) ∨
      (l.findIdx (fun r => !r.is_mini) ≤ index ∧
        l.findIdx (fun r => !r.is_mini) ≤ to_position)) :
    Segregated (List.insertIdx to_position (l.get ⟨index, hin⟩)
      (l.eraseIdx index)) := by
  obtain ⟨a, b, hab, ha, hb⟩ := (segregated_iff_decomp _).1 hseg
  have hf : l.findIdx (fun r => !r.is_mini) = a.length := by
    rw [hab]
    exact findIdx_decomp a b ha hb
  rcases hside with ⟨h1, h2⟩ | ⟨h1, h2⟩
  · -- both positions lie in the mini region
    have hdm := (lt_firstNonMini_iff l hseg index hin).1 h1
    apply segregated_insertIdx_mini _ _ _ (segregated_eraseIdx _ _ hseg) hdm
    rw [hab, List.eraseIdx_append_of_lt_length (by omega),
      findIdx_decomp _ b
        (fun d hd => ha d ((List.eraseIdx_sublist a index).subset hd)) hb,
      List.length_eraseIdx_of_lt (by omega)]
    omega
  · -- both positions lie in the non-mini region
    have hdm : (l.get ⟨index, hin⟩).is_mini = false := by
      cases hmm : (l.get ⟨index, hin⟩).is_mini with
      | false => rfl
      | true =>
        have hcon := (lt_firstNonMini_iff l hseg index hin).2 hmm
        omega
    apply segregated_insertIdx_nonmini _ _ _ (segregated_eraseIdx _ _ hseg) hdm
    rw [hab, List.eraseIdx_append_of_length_le (by omega),
      findIdx_decomp a _ ha
        (fun d hd => hb d
          ((List.eraseIdx_sublist b (index - a.length)).subset hd))]
    omega

theorem moveImpl_inv (m : TabStripModel) (index to_position : Nat) (sam : Bool)
    (hinv : Inv m) (hin : index < m.contents_data.length)
    (hto : to_position < m.contents_data.length)
    (hside : (index < IndexOfFirstNonMiniTab m ∧
        to_position < IndexOfFirstNonMiniTab m) ∨
      (IndexOfFirstNonMiniTab m ≤ index ∧
        IndexOfFirstNonMiniTab m ≤ to_position)) :
    Inv (MoveTabContentsAtImpl m index to_position sam) := by
  obtain ⟨hseg, happ⟩ := hinv
  have hIdx : IndexOfFirstNonMiniTab m =
      m.contents_data.findIdx (fun r => !r.is_mini) := rfl
  rw [hIdx] at hside
  have hto' : to_position ≤ (m.contents_data.eraseIdx index).length := by
    rw [List.length_eraseIdx_of_lt hin]
    omega
  constructor
  · rw [moveImpl_contents m index to_position sam hin]
    exact raw_move_segregated m.contents_data index to_position hseg hin hside
  · rw [moveImpl_contents m index to_position sam hin]
    intro e he hea
    rcases (List.mem_insertIdx hto').1 he with rfl | he
    · exact happ _ (List.getElem_mem hin) hea
    · exact happ _ ((List.eraseIdx_sublist _ _).subset he) hea

theorem move_inv (m : TabStripModel) (index to_position : Nat) (sam : Bool)
    (hinv : Inv m) : Inv (MoveTabContentsAt m index to_position sam).1 := by
  unfold MoveTabContentsAt
  split
  case isTrue hrange =>
    split
    · exact hinv
    case isFalse hne =>
      split
      · exact hinv
      case isFalse hcross =>
        exact moveImpl_inv m index to_position sam hinv hrange.1 hrange.2
          (by omega)
  case isFalse => exact hinv

/-- `ConstrainInsertionIndex` for a mini tab never exceeds the mini/non-mini
boundary. -/
theorem constrain_mini_le (m : TabStripModel) (index : Nat) :
    ConstrainInsertionIndex m index true ≤ IndexOfFirstNonMiniTab m :=
  Nat.min_le_right _ _

/-- `ConstrainInsertionIndex` for a non-mini tab never falls below the
mini/non-mini boundary. -/
theorem constrain_nonmini_ge (m : TabStripModel) (index : Nat) :
    IndexOfFirstNonMiniTab m ≤ ConstrainInsertionIndex m index false :=
  le_min (List.findIdx_le_length _) (Nat.le_max_right _ _)

/-- `ConstrainInsertionIndex` never exceeds `count`. -/
theorem constrain_le_count (m : TabStripModel) (index : Nat) (mini_tab : Bool) :
    ConstrainInsertionIndex m index mini_tab ≤ m.count := by
  cases mini_tab with
  | true => exact Nat.le_trans (Nat.min_le_right _ _) (List.findIdx_le_length _)
  | false => exact Nat.min_le_left _ _

theorem insertLanding_le_length (m : TabStripModel) (index : Nat)
    (c : ContentUnit) (p : Bool) :
    insertLanding m index c p ≤ m.contents_data.length :=
  constrain_le_count m index (c.is_app || p)

theorem insert_inv (m : TabStripModel) (index : Nat) (c : ContentUnit)
    (p s g o : Bool) (hinv : Inv m) :
    Inv (InsertTabContentsAt m index c p s g o) := by
  obtain ⟨hseg, happ⟩ := hinv
  have hcontents : (InsertTabContentsAt m index c p s g o).contents_data =
      m.contents_data.insertIdx (insertLanding m index c p)
        (insertRecord m c p g o) := rfl
  constructor
  · rw [hcontents]
    cases hpin : (c.is_app || p) with
    | true =>
      apply segregated_insertIdx_mini _ _ _ hseg
        (by rw [insertRecord_is_mini, hpin])
      have h1 : insertLanding m index c p = ConstrainInsertionIndex m index true := by
        rw [insertLanding, hpin]
      rw [h1]
      exact constrain_mini_le m index
    | false =>
      apply segregated_insertIdx_nonmini _ _ _ hseg
        (by rw [insertRecord_is_mini, hpin])
      have h1 : insertLanding m index c p = ConstrainInsertionIndex m index false := by
        rw [insertLanding, hpin]
      rw [h1]
      exact constrain_nonmini_ge m index
  · rw [hcontents]
    intro e he hea
    rcases (List.mem_insertIdx (insertLanding_le_length m index c p)).1 he with
      rfl | he
    · rw [insertRecord_contents] at hea
      rw [insertRecord_pinned, hea]
      rfl
    · exact happ _ he hea

theorem remove_inv (m : TabStripModel) (i : Nat) (hinv : Inv m) :
    Inv (RemoveTabAt m i) := by
  unfold RemoveTabAt
  split
  · exact ⟨segregated_eraseIdx _ _ hinv.1,
      fun e he => hinv.2 _ ((List.eraseIdx_sublist _ _).subset he)⟩
  · exact hinv

theorem closeStep_inv (p : TabStripModel × Bool) (i : Nat) (hinv : Inv p.1) :
    Inv (closeStep p i).1 := by
  cases hsome : p.1.contents_data[i]? with
  | none =>
    have h1 : closeStep p i = p := by
      unfold closeStep
      rw [hsome]
    rw [h1]
    exact hinv
  | some d =>
    by_cases hc : d.contents.closesImmediately = true
    · have h1 : closeStep p i = (RemoveTabAt p.1 i, p.2) := by
        unfold closeStep
        rw [hsome]
        simp [hc]
      rw [h1]
      exact remove_inv _ _ hinv
    · have h1 : closeStep p i = (p.1, false) := by
        unfold closeStep
        rw [hsome]
        simp [hc]
      rw [h1]
      exact hinv

theorem closeFold_inv :
    ∀ (indices : List Nat) (p : TabStripModel × Bool), Inv p.1 →
      Inv (indices.foldl closeStep p).1
  | [], _, h => h
  | i :: rest, p, h => closeFold_inv rest (closeStep p i) (closeStep_inv p i h)

theorem closeTabs_inv (m : TabStripModel) (indices : List Nat) (hinv : Inv m) :
    Inv (InternalCloseTabs m indices).1 :=
  closeFold_inv indices (m, true) hinv

/-- Setting a slot to a record of equal mini-ness and sound app/pin state
preserves both invariants. -/
theorem set_inv (m : TabStripModel) (index : Nat) (d d' : TabContentsData)
    (hinv : Inv m) (hsome : m.contents_data[index]? = some d)
    (hmini : d'.is_mini = d.is_mini)
    (happd : d'.contents.is_app = true → d'.pinned = true) :
    Inv { m with contents_data := m.contents_data.set index d' } := by
  refine ⟨segregated_set _ _ _ hinv.1 ?_, ?_⟩
  · intro e he
    rw [hsome] at he
    exact (Option.some.inj he) ▸ hmini
  · intro e he hea
    rcases List.mem_or_eq_of_mem_set he with he2 | rfl
    · exact hinv.2 _ he2 hea
    · exact happd hea

/-- Setting the record at the mini/non-mini boundary to a mini record keeps
the list segregated. -/
theorem segregated_set_boundary_mini (l : List TabContentsData)
    (d' : TabContentsData) (hseg : Segregated l) (hd : d'.is_mini = true)
    (hin : l.findIdx (fun r => !r.is_mini) < l.length) :
    Segregated (l.set (l.findIdx (fun r => !r.is_mini)) d') := by
  obtain ⟨a, b, rfl, ha, hb⟩ := (segregated_iff_decomp l).1 hseg
  rw [findIdx_decomp a b ha hb] at hin ⊢
  rw [List.set_append_right _ _ (Nat.le_refl _), Nat.sub_self]
  cases b with
  | nil => simp at hin
  | cons e b2 =>
    rw [List.set_cons_zero]
    refine (segregated_iff_decomp _).2 ⟨a ++ [d'], b2, by simp, ?_, ?_⟩
    · intro x hx
      rcases List.mem_append.1 hx with hx | hx
      · exact ha x hx
      · rw [List.mem_singleton.1 hx]
        exact hd
    · intro x hx
      exact hb x (List.mem_cons_of_mem e hx)

/-- Setting the last record of the mini region to a non-mini record keeps the
list segregated. -/
theorem segregated_set_lastmini_nonmini (l : List TabContentsData)
    (d' : TabContentsData) (hseg : Segregated l) (hd : d'.is_mini = false)
    (hpos : 0 < l.findIdx (fun r => !r.is_mini)) :
    Segregated (l.set (l.findIdx (fun r => !r.is_mini) - 1) d') := by
  obtain ⟨a, b, rfl, ha, hb⟩ := (segregated_iff_decomp l).1 hseg
  rw [findIdx_decomp a b ha hb] at hpos ⊢
  rw [List.set_append_left _ _ (by omega)]
  have hset : a.set (a.length - 1) d' = a.take (a.length - 1) ++ [d'] := by
    rw [List.set_eq_take_append_cons_drop, if_pos (by omega)]
    have hdrop : a.drop (a.length - 1 + 1) = [] := by
      rw [(by omega : a.length - 1 + 1 = a.length), List.drop_length]
    rw [hdrop]
  rw [hset, List.append_assoc, List.singleton_append]
  refine (segregated_iff_decomp _).2 ⟨a.take (a.length - 1), d' :: b, rfl, ?_, ?_⟩
  · intro x hx
    exact ha x ((List.take_sublist _ _).subset hx)
  · intro x hx
    rcases List.mem_cons.1 hx with rfl | hx
    · exact hd
    · exact hb x hx

theorem setMove_contents (m : TabStripModel) (index t : Nat)
    (d' : TabContentsData) (hin : index < m.contents_data.length) :
    (MoveTabContentsAtImpl
        { m with contents_data := m.contents_data.set index d' }
        index t false).contents_data =
      List.insertIdx t d' (m.contents_data.eraseIdx index) := by
  rw [moveImpl_contents _ index t false (by simpa using hin)]
  rw [eraseIdx_set_same]
  congr 1
  exact List.getElem_set_self _

theorem appsPinned_insert_erase (l : List TabContentsData)
    (d' : TabContentsData) (t index : Nat) (happ : AppsPinned l)
    (ht : t ≤ (l.eraseIdx index).length)
    (hd : d'.contents.is_app = true → d'.pinned = true) :
    AppsPinned (List.insertIdx t d' (l.eraseIdx index)) := by
  intro e he hea
  rcases (List.mem_insertIdx ht).1 he with rfl | he
  · exact hd hea
  · exact happ _ ((List.eraseIdx_sublist _ _).subset he) hea

theorem setPinned_inv (m : TabStripModel) (index : Nat) (pinned : Bool)
    (hinv : Inv m) : Inv (SetTabPinned m index pinned) := by
  cases hsome : m.contents_data[index]? with
  | none =>
    have h1 : SetTabPinned m index pinned = m := by
      unfold SetTabPinned
      rw [hsome]
    rw [h1]
    exact hinv
  | some d =>
    obtain ⟨hin, hd⟩ := List.getElem?_eq_some_iff.1 hsome
    have hdmem : d ∈ m.contents_data := hd ▸ List.getElem_mem hin
    have hIdx : IndexOfFirstNonMiniTab m =
        m.contents_data.findIdx (fun r => !r.is_mini) := rfl
    by_cases hch : d.pinned = pinned
    · have h1 : SetTabPinned m index pinned = m := by
        unfold SetTabPinned
        rw [hsome]
        simp [hch]
      rw [h1]
      exact hinv
    · by_cases happt : d.contents.is_app = true
      · cases pinned with
        | false =>
          have h1 : SetTabPinned m index false = m := by
            unfold SetTabPinned
            rw [hsome]
            simp [hch, happt]
          rw [h1]
          exact hinv
        | true =>
          have h1 : SetTabPinned m index true =
              { m with contents_data :=
                  m.contents_data.set index { d with pinned := true } } := by
            unfold SetTabPinned
            rw [hsome]
            simp [hch, happt]
          rw [h1]
          refine set_inv m index d _ hinv hsome ?_ ?_
          · simp [TabContentsData.is_mini, happt]
          · intro _
            rfl
      · -- the tab is not an app tab; it is relocated to the boundary
        have happf : d.contents.is_app = false := by
          simpa using happt
        cases pinned with
        | true =>
          -- pinning a non-mini tab
          have hpf : d.pinned = false := by
            simpa using hch
          have hge : IndexOfFirstNonMiniTab m ≤ index := by
            by_contra hcon
            have h2 := (lt_firstNonMini_iff m.contents_data hinv.1 index hin).1
              (by omega)
            rw [List.get_eq_getElem, hd, TabContentsData.is_mini, hpf, happf]
              at h2
            exact absurd h2 (by decide)
          have hminiNew : ({ d with pinned := true } : TabContentsData).is_mini
              = true := by
            rw [TabContentsData.is_mini]
            rfl
          by_cases hif : index = IndexOfFirstNonMiniTab m
          · have h1 : SetTabPinned m index true =
                { m with contents_data :=
                    m.contents_data.set index { d with pinned := true } } := by
              unfold SetTabPinned
              rw [hsome]
              simp [hch, happt, hif]
            rw [h1]
            constructor
            · have h2 := segregated_set_boundary_mini m.contents_data
                { d with pinned := true } hinv.1 hminiNew (by omega)
              have hfi : m.contents_data.findIdx (fun r => !r.is_mini) =
                  index := by
                rw [hif]
                rfl
              rw [hfi] at h2
              exact h2
            · intro e he hea
              rcases List.mem_or_eq_of_mem_set he with he2 | rfl
              · exact hinv.2 _ he2 hea
              · rfl
          · have h1 : SetTabPinned m index true =
                MoveTabContentsAtImpl
                  { m with contents_data :=
                      m.contents_data.set index { d with pinned := true } }
                  index (IndexOfFirstNonMiniTab m) false := by
              unfold SetTabPinned
              rw [hsome]
              simp [hch, happt, hif]
            rw [h1]
            have hgt : IndexOfFirstNonMiniTab m < index := by omega
            obtain ⟨a, b, hab, ha, hb⟩ :=
              (segregated_iff_decomp m.contents_data).1 hinv.1
            have hf : IndexOfFirstNonMiniTab m = a.length := by
              rw [IndexOfFirstNonMiniTab, hab]
              exact findIdx_decomp a b ha hb
            have hlen := hab ▸ hin
            rw [List.length_append] at hlen
            constructor
            · rw [setMove_contents m index (IndexOfFirstNonMiniTab m) _ hin]
              apply segregated_insertIdx_mini _ _ _
                (segregated_eraseIdx _ _ hinv.1) hminiNew
              rw [hab, List.eraseIdx_append_of_length_le (by omega),
                findIdx_decomp a _ ha
                  (fun x hx => hb x
                    ((List.eraseIdx_sublist b (index - a.length)).subset hx))]
              omega
            · rw [setMove_contents m index (IndexOfFirstNonMiniTab m) _ hin]
              apply appsPinned_insert_erase _ _ _ _ hinv.2
              · rw [List.length_eraseIdx_of_lt hin]
                omega
              · intro _
                rfl
        | false =>
          -- unpinning a mini (pinned, non-app) tab
          have hpt : d.pinned = true := by
            simpa using hch
          have hlt : index < IndexOfFirstNonMiniTab m :=
            (lt_firstNonMini_iff m.contents_data hinv.1 index hin).2 (by
              rw [List.get_eq_getElem, hd]
              simp [TabContentsData.is_mini, hpt])
          have hminiNew : ({ d with pinned := false } : TabContentsData).is_mini
              = false := by
            rw [TabContentsData.is_mini, happf]
            rfl
          by_cases hif : index + 1 = IndexOfFirstNonMiniTab m
          · have h1 : SetTabPinned m index false =
                { m with contents_data :=
                    m.contents_data.set index { d with pinned := false } } := by
              unfold SetTabPinned
              rw [hsome]
              simp [hch, happt, hif]
            rw [h1]
            constructor
            · have h2 := segregated_set_lastmini_nonmini m.contents_data
                { d with pinned := false } hinv.1 hminiNew (by omega)
              have hfi : m.contents_data.findIdx (fun r => !r.is_mini) - 1 =
                  index := by omega
              rw [hfi] at h2
              exact h2
            · intro e he hea
              rcases List.mem_or_eq_of_mem_set he with he2 | rfl
              · exact hinv.2 _ he2 hea
              · rw [show ({ d with pinned := false } :
                    TabContentsData).contents.is_app = false from happf] at hea
                exact absurd hea Bool.false_ne_true
          · have h1 : SetTabPinned m index false =
                MoveTabContentsAtImpl
                  { m with contents_data :=
                      m.contents_data.set index { d with pinned := false } }
                  index (IndexOfFirstNonMiniTab m - 1) false := by
              unfold SetTabPinned
              rw [hsome]
              simp [hch, happt, hif]
            rw [h1]
            obtain ⟨a, b, hab, ha, hb⟩ :=
              (segregated_iff_decomp m.contents_data).1 hinv.1
            have hf : IndexOfFirstNonMiniTab m = a.length := by
              rw [IndexOfFirstNonMiniTab, hab]
              exact findIdx_decomp a b ha hb
            constructor
            · rw [setMove_contents m index (IndexOfFirstNonMiniTab m - 1) _ hin]
              apply segregated_insertIdx_nonmini _ _ _
                (segregated_eraseIdx _ _ hinv.1) hminiNew
              rw [hab, List.eraseIdx_append_of_lt_length (by omega),
                findIdx_decomp _ b
                  (fun x hx => ha x
                    ((List.eraseIdx_sublist a index).subset hx)) hb,
                List.length_eraseIdx_of_lt (by omega)]
              omega
            · rw [setMove_contents m index (IndexOfFirstNonMiniTab m - 1) _ hin]
              apply appsPinned_insert_erase _ _ _ _ hinv.2
              · rw [List.length_eraseIdx_of_lt hin]
                have hfl : IndexOfFirstNonMiniTab m ≤ m.contents_data.length :=
                  List.findIdx_le_length _
                omega
              · intro hea
                rw [show ({ d with pinned := false } :
                    TabContentsData).contents.is_app = false from happf] at hea
                exact absurd hea Bool.false_ne_true

theorem setBlocked_inv (m : TabStripModel) (index : Nat) (blocked : Bool)
    (hinv : Inv m) : Inv (SetTabBlocked m index blocked) := by
  cases hsome : m.contents_data[index]? with
  | none =>
    have h1 : SetTabBlocked m index blocked = m := by
      unfold SetTabBlocked
      rw [hsome]
    rw [h1]
    exact hinv
  | some d =>
    obtain ⟨hin, hd⟩ := List.getElem?_eq_some_iff.1 hsome
    have hdmem : d ∈ m.contents_data := hd ▸ List.getElem_mem hin
    have h1 : SetTabBlocked m index blocked =
        { m with contents_data :=
            m.contents_data.set index { d with blocked := blocked } } := by
      unfold SetTabBlocked
      rw [hsome]
    rw [h1]
    exact set_inv m index d _ hinv hsome rfl (fun h => hinv.2 d hdmem h)

theorem select_inv (m : TabStripModel) (index : Nat) (hinv : Inv m) :
    Inv (SelectTabContentsAt m index) := by
  unfold SelectTabContentsAt
  split
  · exact hinv
  · exact hinv

theorem replace_inv (m : TabStripModel) (index : Nat) (c : ContentUnit)
    (hinv : Inv m)
    (hguard : ∀ d, m.contents_data[index]? = some d →
      d.contents.is_app = c.is_app) :
    Inv (ReplaceTabContentsAt m index c) := by
  cases hsome : m.contents_data[index]? with
  | none =>
    have h1 : ReplaceTabContentsAt m index c = m := by
      unfold ReplaceTabContentsAt
      rw [hsome]
    rw [h1]
    exact hinv
  | some d =>
    obtain ⟨hin, hd⟩ := List.getElem?_eq_some_iff.1 hsome
    have hdmem : d ∈ m.contents_data := hd ▸ List.getElem_mem hin
    have h1 : ReplaceTabContentsAt m index c =
        { m with contents_data :=
            m.contents_data.set index { d with contents := c } } := by
      unfold ReplaceTabContentsAt
      rw [hsome]
    rw [h1]
    refine set_inv m index d _ hinv hsome ?_ ?_
    · rw [TabContentsData.is_mini, TabContentsData.is_mini]
      rw [show ({ d with contents := c } : TabContentsData).contents.is_app =
        c.is_app from rfl, hguard d hsome]
    · intro h
      exact hinv.2 d hdmem (by rw [← hguard d hsome] at h; exact h)

theorem forgetGroup_inv (m : TabStripModel) (index : Nat) (hinv : Inv m) :
    Inv (ForgetGroupAt m index) := by
  cases hsome : m.contents_data[index]? with
  | none =>
    have h1 : ForgetGroupAt m index = m := by
      unfold ForgetGroupAt
      rw [hsome]
    rw [h1]
    exact hinv
  | some d =>
    obtain ⟨hin, hd⟩ := List.getElem?_eq_some_iff.1 hsome
    have hdmem : d ∈ m.contents_data := hd ▸ List.getElem_mem hin
    have h1 : ForgetGroupAt m index =
        { m with contents_data :=
            m.contents_data.set index ((d.SetGroup none).ForgetOpener) } := by
      unfold ForgetGroupAt
      rw [hsome]
    rw [h1]
    exact set_inv m index d _ hinv hsome rfl (fun h => hinv.2 d hdmem h)

theorem forgetOpeners_inv (m : TabStripModel) (hinv : Inv m) :
    Inv (ForgetAllOpeners m) := by
  constructor
  · show Segregated (m.contents_data.map TabContentsData.ForgetOpener)
    rw [Segregated, List.pairwise_map]
    exact hinv.1.imp (fun h => h)
  · intro e he hea
    have he2 : e ∈ m.contents_data.map TabContentsData.ForgetOpener := he
    obtain ⟨x, hx, rfl⟩ := List.mem_map.1 he2
    exact hinv.2 x hx hea

/-- Spec §3: both invariants hold in every reachable collection state. -/
theorem reachable_inv (m : TabStripModel) (h : Reachable m) : Inv m := by
  induction h with
  | empty => exact ⟨List.Pairwise.nil, fun d hd => absurd hd (List.not_mem_nil d)⟩
  | insert m index c p s g o _ ih => exact insert_inv m index c p s g o ih
  | close m indices _ ih => exact closeTabs_inv m indices ih
  | detach m index _ ih => exact remove_inv m index ih
  | move m index t sam _ ih => exact move_inv m index t sam ih
  | select m index _ ih => exact select_inv m index ih
  | setPinned m index p _ ih => exact setPinned_inv m index p ih
  | setBlocked m index b _ ih => exact setBlocked_inv m index b ih
  | replace m index c _ hguard ih => exact replace_inv m index c ih hguard
  | forgetGroup m index _ ih => exact forgetGroup_inv m index ih
  | forgetOpeners m _ ih => exact forgetOpeners_inv m ih

/-! ## Concrete states used by witnesses -/

/-- An app content unit (always closes immediately in these checks). -/
def wAppUnit : ContentUnit := ⟨5, true, true⟩

/-- A plain content unit. -/
def wNormUnit : ContentUnit := ⟨6, false, true⟩

/-- A reachable state holding an app tab followed by a normal tab. -/
def wState12 : TabStripModel :=
  InsertTabContentsAt
    (InsertTabContentsAt ⟨[], kNoTab⟩ 0 wAppUnit false true false false)
    1 wNormUnit false false false false

theorem wState12_reachable : Reachable wState12 :=
  Reachable.insert _ 1 wNormUnit false false false false
    (Reachable.insert _ 0 wAppUnit false true false false Reachable.empty)

/-! ## Claim theorems -/

/-- C1: in every reachable collection state the tabs are segregated: for all
indices `i < j` the mini-ness of `record[i]` dominates that of `record[j]`
(a later mini record forces every earlier record mini), and equivalently a
record is mini exactly when its index lies below `IndexOfFirstNonMiniTab`,
so the mini tabs occupy the contiguous region `[0, firstNonMini)` and the
others `[firstNonMini, count)`. -/
theorem tabStrip_mini_tabs_contiguous (m : TabStripModel) (h : Reachable m) :
    (∀ i j (hij : i < j) (hj : j < m.contents_data.length),
      (m.contents_data.get ⟨j, hj⟩).is_mini = true →
      (m.contents_data.get ⟨i, Nat.lt_trans hij hj⟩).is_mini = true) ∧
    (∀ k (hk : k < m.contents_data.length),
      ((m.contents_data.get ⟨k, hk⟩).is_mini = true ↔
        k < IndexOfFirstNonMiniTab m)) := by
  have hinv := reachable_inv m h
  constructor
  · intro i j hij hj hmini
    exact (List.pairwise_iff_getElem.1 hinv.1) i j (Nat.lt_trans hij hj) hj hij
      hmini
  · intro k hk
    exact (lt_firstNonMini_iff m.contents_data hinv.1 k hk).symm

theorem tabStrip_mini_tabs_contiguous_witness :
    (wState12.contents_data.get ⟨0, by decide⟩).is_mini = true ↔
      0 < IndexOfFirstNonMiniTab wState12 :=
  (tabStrip_mini_tabs_contiguous wState12 wState12_reachable).2 0 (by decide)

/-- C2: in every reachable state a tab whose content unit is an app tab has
its pinned flag set, and `SetTabPinned(index, false)` on an app tab leaves
the state completely unchanged. -/
theorem app_tabs_always_pinned (m : TabStripModel) (h : Reachable m) (i : Nat)
    (hi : i < m.contents_data.length)
    (happ : (m.contents_data.get ⟨i, hi⟩).contents.is_app = true) :
    (m.contents_data.get ⟨i, hi⟩).pinned = true ∧ SetTabPinned m i false = m := by
  have hinv := reachable_inv m h
  have hpin : (m.contents_data.get ⟨i, hi⟩).pinned = true :=
    hinv.2 _ (List.getElem_mem hi) happ
  refine ⟨hpin, ?_⟩
  have hpin2 := hpin
  have happ2 := happ
  rw [List.get_eq_getElem] at hpin2 happ2
  unfold SetTabPinned
  rw [List.getElem?_eq_getElem hi]
  simp [hpin2, happ2]

theorem app_tabs_always_pinned_witness :
    (wState12.contents_data.get ⟨0, by decide⟩).pinned = true ∧
      SetTabPinned wState12 0 false = wState12 :=
  app_tabs_always_pinned wState12 wState12_reachable 0 (by decide) (by decide)

/-- C4: a move whose destination would break the segregation of mini and
non-mini tabs (erasing the tab and reinserting it at the destination yields a
non-segregated sequence) is rejected as a complete no-op: the state, hence
the ordered sequence, the selection and every record, is unchanged, and no
event is fired. -/
theorem move_across_boundary_rejected (m : TabStripModel) (i j : Nat)
    (s : Bool) (hseg : Segregated m.contents_data)
    (hi : i < m.count) (hj : j < m.count)
    (hbad : ¬ Segregated (List.insertIdx j (m.contents_data.get ⟨i, hi⟩)
        (m.contents_data.eraseIdx i))) :
    MoveTabContentsAt m i j s = (m, []) := by
  unfold MoveTabContentsAt
  rw [if_pos ⟨hi, hj⟩]
  by_cases hij : i = j
  · rw [if_pos hij]
  · rw [if_neg hij]
    by_cases hcross : (i < IndexOfFirstNonMiniTab m ∧
        IndexOfFirstNonMiniTab m ≤ j) ∨
      (j < IndexOfFirstNonMiniTab m ∧ IndexOfFirstNonMiniTab m ≤ i)
    · rw [if_pos hcross]
    · exfalso
      have hIdx : IndexOfFirstNonMiniTab m =
          m.contents_data.findIdx (fun r => !r.is_mini) := rfl
      exact hbad (raw_move_segregated m.contents_data i j hseg hi (by omega))

/-- A pinned record and a plain record used in the move/insert checks. -/
def wPinnedRec : TabContentsData :=
  { mkTabContentsData ⟨20, false, true⟩ with pinned := true }

def wPinnedRec2 : TabContentsData :=
  { mkTabContentsData ⟨21, false, true⟩ with pinned := true }

def wNormRec1 : TabContentsData := mkTabContentsData ⟨10, false, true⟩

def wNormRec2 : TabContentsData := mkTabContentsData ⟨11, false, true⟩

/-- The state `[Pinned0, Pinned1, Normal2, Normal3]` of the spec scenario. -/
def wState4 : TabStripModel :=
  ⟨[wPinnedRec, wPinnedRec2, wNormRec1, wNormRec2], 0⟩

theorem move_across_boundary_rejected_witness :
    MoveTabContentsAt wState4 1 3 false = (wState4, []) :=
  move_across_boundary_rejected wState4 1 3 false (by decide) (by decide)
    (by decide) (by decide)

/-- The two-normal-tab state of the spec insertion scenario. -/
def wState2N : TabStripModel := ⟨[wNormRec1, wNormRec2], 0⟩

/-- C5: without `ADD_FORCE_INDEX` the insertion index is clamped into the
permitted sub-range: a mini tab lands in `[0, firstNonMini]`, a non-mini tab
lands in `[firstNonMini, count]`; in particular a pinned tab proposed at
index 1 of two non-mini tabs lands at index 0, in front of both. -/
theorem insertion_index_constrained (m : TabStripModel) (index : Nat) :
    ConstrainInsertionIndex m index true ≤ IndexOfFirstNonMiniTab m ∧
    IndexOfFirstNonMiniTab m ≤ ConstrainInsertionIndex m index false ∧
    ConstrainInsertionIndex m index false ≤ m.count ∧
    insertLanding wState2N 1 ⟨12, false, true⟩ true = 0 ∧
    (InsertTabContentsAt wState2N 1 ⟨12, false, true⟩ true false false
        false).contents_data.map (fun d => (d.contents.cid, d.pinned)) =
      [(12, true), (10, false), (11, false)] :=
  ⟨constrain_mini_le m index, constrain_nonmini_ge m index,
    constrain_le_count m index false, by decide, by decide⟩

/-- C7: a freshly created tab record has its opener initialized equal to its
group (the constructor sets both through `SetGroup(NULL)`), and `SetGroup`
always sets `group` and `opener` to the same value. -/
theorem opener_initialized_with_group (c : ContentUnit) (d : TabContentsData)
    (g : Option Nat) :
    (mkTabContentsData c).opener = (mkTabContentsData c).group ∧
    (d.SetGroup g).group = g ∧ (d.SetGroup g).opener = g :=
  ⟨rfl, rfl, rfl⟩

/-- C8: `ReplaceTabContentsAt` hands the slot to the new content while the
record keeps its `pinned`, `blocked`, `group` and `opener` state (the slot at
`i` becomes the old record with only `contents` swapped), every other slot,
the selection and the length are untouched. -/
theorem replace_preserves_slot_state (m : TabStripModel) (i : Nat)
    (hi : i < m.contents_data.length) (c : ContentUnit) :
    (ReplaceTabContentsAt m i c).contents_data[i]? =
      some { m.contents_data.get ⟨i, hi⟩ with contents := c } ∧
    (∀ k, k ≠ i →
      (ReplaceTabContentsAt m i c).contents_data[k]? =
        m.contents_data[k]?) ∧
    (ReplaceTabContentsAt m i c).selected_index = m.selected_index ∧
    (ReplaceTabContentsAt m i c).contents_data.length =
      m.contents_data.length := by
  have h1 : ReplaceTabContentsAt m i c =
      ⟨m.contents_data.set i
          ({ m.contents_data.get ⟨i, hi⟩ with contents := c }),
        m.selected_index⟩ := by
    unfold ReplaceTabContentsAt
    rw [List.getElem?_eq_getElem hi]
    rfl
  rw [h1]
  refine ⟨?_, ?_, rfl, List.length_set _ _ _⟩
  · exact List.getElem?_set_self (by simpa using hi)
  · intro k hk
    exact List.getElem?_set_ne (fun he => hk he.symm)

/-- The single-tab state used by the replace witness. -/
def wReplState : TabStripModel := ⟨[mkTabContentsData ⟨7, false, true⟩], 0⟩

theorem replace_preserves_slot_state_witness :
    (ReplaceTabContentsAt wReplState 0 ⟨8, false, true⟩).contents_data[0]? =
      some { wReplState.contents_data.get ⟨0, by decide⟩ with
        contents := ⟨8, false, true⟩ } :=
  (replace_preserves_slot_state wReplState 0 (by decide) ⟨8, false, true⟩).1

/-- C10: `UserAccountControlIsEnabled` fails open: it returns `true`
whenever the `EnableLUA` value cannot be read, it returns `true` for every
nonzero readable value (not only 1), and it returns `false` exactly when the
value reads as 0. -/
theorem uac_enabled_fails_open :
    UserAccountControlIsEnabled none = true ∧
    (∀ v, v ≠ 0 → UserAccountControlIsEnabled (some v) = true) ∧
    (∀ r, UserAccountControlIsEnabled r = false ↔ r = some 0) := by
  refine ⟨rfl, ?_, ?_⟩
  · intro v hv
    simp [UserAccountControlIsEnabled, hv]
  · intro r
    cases r with
    | none => simp [UserAccountControlIsEnabled]
    | some v => simp [UserAccountControlIsEnabled]

theorem uac_enabled_fails_open_witness :
    UserAccountControlIsEnabled (some 2) = true :=
  uac_enabled_fails_open.2.1 2 (by decide)

/-! ## C3: the next-selection algorithm -/

theorem findIdx?_some_pred {α : Type} (p : α → Bool) (xs : List α) (k : Nat)
    (h : xs.findIdx? p = some k) :
    (∃ d, xs[k]? = some d ∧ p d = true) ∧
      ∀ t d, t < k → xs[t]? = some d → p d = false := by
  obtain ⟨hk, hfi⟩ := List.findIdx?_eq_some_iff_findIdx_eq.1 h
  subst hfi
  constructor
  · exact ⟨xs.get ⟨xs.findIdx p, hk⟩, List.getElem?_eq_getElem hk,
      List.findIdx_getElem⟩
  · intro t d ht hsome
    obtain ⟨hlt, hd⟩ := List.getElem?_eq_some_iff.1 hsome
    rw [← hd]
    exact List.not_of_lt_findIdx ht

/-- What `nearestMatch tabs i p = some j` guarantees: `j` is another live
index whose record satisfies `p`, and it is the nearest such index to `i`,
preferring indices greater than `i`. -/
theorem nearestMatch_spec (tabs : List TabContentsData) (i : Nat)
    (p : TabContentsData → Bool) (j : Nat) (hi : i < tabs.length)
    (h : nearestMatch tabs i p = some j) :
    j ≠ i ∧ j < tabs.length ∧ (∃ d, tabs[j]? = some d ∧ p d = true) ∧
      ((i < j ∧ ∀ k d, i < k → k < j → tabs[k]? = some d → p d = false) ∨
       (j < i ∧ (∀ k d, i < k → tabs[k]? = some d → p d = false) ∧
        (∀ k d, j < k → k < i → tabs[k]? = some d → p d = false))) := by
  unfold nearestMatch at h
  cases hfwd : (tabs.drop (i + 1)).findIdx? p with
  | some k =>
    rw [hfwd] at h
    have hj := Option.some.inj h
    subst hj
    obtain ⟨⟨d, hd, hpd⟩, hmin⟩ := findIdx?_some_pred p _ k hfwd
    rw [List.getElem?_drop] at hd
    obtain ⟨hjlen, _⟩ := List.getElem?_eq_some_iff.1 hd
    refine ⟨by omega, by omega, ⟨d, hd, hpd⟩, Or.inl ⟨by omega, ?_⟩⟩
    intro k2 d2 hik2 hk2j hsome2
    obtain ⟨t, rfl⟩ : ∃ t, k2 = i + 1 + t := ⟨k2 - (i + 1), by omega⟩
    apply hmin t d2 (by omega)
    rw [List.getElem?_drop]
    exact hsome2
  | none =>
    rw [hfwd] at h
    have hnofwd : ∀ k d, i < k → tabs[k]? = some d → p d = false := by
      intro k d hik hsome
      have hmem : d ∈ tabs.drop (i + 1) := by
        apply List.getElem?_mem (n := k - (i + 1))
        rw [List.getElem?_drop,
          (by omega : i + 1 + (k - (i + 1)) = k)]
        exact hsome
      exact (List.findIdx?_eq_none_iff.1 hfwd) d hmem
    cases hbwd : ((tabs.take i).reverse).findIdx? p with
    | none =>
      rw [hbwd] at h
      exact Option.noConfusion h
    | some k =>
      rw [hbwd] at h
      have hj := Option.some.inj h
      subst hj
      obtain ⟨⟨d, hd, hpd⟩, hmin⟩ := findIdx?_some_pred p _ k hbwd
      obtain ⟨hklen, _⟩ := List.getElem?_eq_some_iff.1 hd
      rw [List.length_reverse, List.length_take,
        Nat.min_eq_left (Nat.le_of_lt hi)] at hklen
      have hTl : (tabs.take i).length = i := by
        rw [List.length_take]
        exact Nat.min_eq_left (Nat.le_of_lt hi)
      rw [List.getElem?_reverse (by rw [hTl]; omega), hTl,
        List.getElem?_take_of_lt (by omega)] at hd
      refine ⟨by omega, by omega, ⟨d, hd, hpd⟩,
        Or.inr ⟨by omega, hnofwd, ?_⟩⟩
      intro k2 d2 hjk2 hk2i hsome2
      obtain ⟨t, ht, rfl⟩ : ∃ t, t < k ∧ k2 = i - 1 - t :=
        ⟨i - 1 - k2, by omega, by omega⟩
      apply hmin t d2 ht
      rw [List.getElem?_reverse (by rw [hTl]; omega), hTl,
        List.getElem?_take_of_lt (by omega)]
      exact hsome2

/-- The scenario tabs: `A`, then `B` whose group (and hence opener) points at
`C`'s controller identity `3`, then `C`. -/
def tabA : TabContentsData := mkTabContentsData ⟨1, false, true⟩

def tabB : TabContentsData := (mkTabContentsData ⟨2, false, true⟩).SetGroup (some 3)

def tabC : TabContentsData := mkTabContentsData ⟨3, false, true⟩

/-- The scenario collection `[A, B, C]` with `B` selected. -/
def scenarioABC : TabStripModel := ⟨[tabA, tabB, tabC], 1⟩

/-- C3: removing the tab at `i` picks the next selection by a fixed priority:
first the nearest other live tab sharing the removed tab's `group` reference
(preferring indices greater than `i`), else the live tab the `opener`
reference resolves to, else the tab occupying index `i` after removal
(originally `i+1`, or `i-1` when `i` was last), and `kNoTab` when the
collection becomes empty; results are reported as post-removal indices.  In
particular, closing `B` in `[A, B, C]` with `B` selected and `B`'s group
pointing at `C` leaves `[A, C]` with `C` selected at index 1. -/
theorem next_selection_priority (tabs : List TabContentsData) (i : Nat)
    (hi : i < tabs.length) :
    (tabs.length = 1 → DetermineNewSelectedIndex tabs i = kNoTab) ∧
    (∀ j, nextGroupPeer tabs i = some j → 1 < tabs.length →
      DetermineNewSelectedIndex tabs i =
        (if i < j then (j : Int) - 1 else (j : Int)) ∧
      j ≠ i ∧ j < tabs.length ∧
      (∃ g, (∃ di, tabs[i]? = some di ∧ di.group = some g) ∧
        (∃ dj, tabs[j]? = some dj ∧ dj.group = some g) ∧
        ((i < j ∧ ∀ k d, i < k → k < j → tabs[k]? = some d →
            d.group ≠ some g) ∨
         (j < i ∧ (∀ k d, i < k → tabs[k]? = some d → d.group ≠ some g) ∧
          (∀ k d, j < k → k < i → tabs[k]? = some d →
            d.group ≠ some g))))) ∧
    (∀ j, nextGroupPeer tabs i = none → openerTarget tabs i = some j →
      1 < tabs.length →
      DetermineNewSelectedIndex tabs i =
        (if i < j then (j : Int) - 1 else (j : Int)) ∧
      j ≠ i ∧ j < tabs.length ∧
      (∃ o, (∃ di, tabs[i]? = some di ∧ di.opener = some o) ∧
        (∃ dj, tabs[j]? = some dj ∧ dj.contents.cid = o))) ∧
    (nextGroupPeer tabs i = none → openerTarget tabs i = none →
      1 < tabs.length →
      DetermineNewSelectedIndex tabs i =
        (if i + 1 < tabs.length then (i : Int) else (i : Int) - 1)) ∧
    ((CloseTabContentsAt scenarioABC 1).1.contents_data = [tabA, tabC] ∧
     (CloseTabContentsAt scenarioABC 1).1.selected_index = 1 ∧
     (CloseTabContentsAt scenarioABC 1).2 = true) := by
  refine ⟨?_, ?_, ?_, ?_, by decide, by decide, by decide⟩
  · intro hlen
    unfold DetermineNewSelectedIndex
    rw [if_pos (by omega)]
  · intro j hpeer hlen
    refine ⟨?_, ?_⟩
    · unfold DetermineNewSelectedIndex
      rw [if_neg (by omega), hpeer]
    · unfold nextGroupPeer at hpeer
      rw [show tabs[i]? = some (tabs.get ⟨i, hi⟩) from
        List.getElem?_eq_getElem hi] at hpeer
      simp only [Option.some_bind] at hpeer
      cases hg : (tabs.get ⟨i, hi⟩).group with
      | none =>
        rw [hg] at hpeer
        exact Option.noConfusion hpeer
      | some g =>
        rw [hg] at hpeer
        obtain ⟨hne, hjlen, ⟨d, hd, hpd⟩, hnear⟩ :=
          nearestMatch_spec tabs i _ j hi hpeer
        refine ⟨hne, hjlen, g,
          ⟨tabs.get ⟨i, hi⟩, List.getElem?_eq_getElem hi, hg⟩,
          ⟨d, hd, by simpa using hpd⟩, ?_⟩
        rcases hnear with ⟨hij, hmin⟩ | ⟨hji, hnone, hmin⟩
        · exact Or.inl ⟨hij, fun k e hik hkj hsome => by
            simpa using hmin k e hik hkj hsome⟩
        · exact Or.inr ⟨hji,
            fun k e hik hsome => by simpa using hnone k e hik hsome,
            fun k e hjk hki hsome => by simpa using hmin k e hjk hki hsome⟩
  · intro j hpeer hop hlen
    refine ⟨?_, ?_⟩
    · unfold DetermineNewSelectedIndex
      rw [if_neg (by omega), hpeer, hop]
    · unfold openerTarget at hop
      rw [show tabs[i]? = some (tabs.get ⟨i, hi⟩) from
        List.getElem?_eq_getElem hi] at hop
      simp only [Option.some_bind] at hop
      cases ho : (tabs.get ⟨i, hi⟩).opener with
      | none =>
        rw [ho] at hop
        exact Option.noConfusion hop
      | some o =>
        rw [ho] at hop
        obtain ⟨hne, hjlen, ⟨d, hd, hpd⟩, _⟩ :=
          nearestMatch_spec tabs i _ j hi hop
        exact ⟨hne, hjlen, o,
          ⟨tabs.get ⟨i, hi⟩, List.getElem?_eq_getElem hi, ho⟩,
          ⟨d, hd, by simpa using hpd⟩⟩
  · intro hpeer hop hlen
    unfold DetermineNewSelectedIndex
    rw [if_neg (by omega), hpeer, hop]

theorem next_selection_priority_witness :
    DetermineNewSelectedIndex [tabA] 0 = kNoTab :=
  (next_selection_priority [tabA] 0 (by decide)).1 rfl

/-! ## C6: batch close reporting -/

theorem removeTabAt_contents (m : TabStripModel) (i : Nat)
    (hi : i < m.contents_data.length) :
    (RemoveTabAt m i).contents_data = m.contents_data.eraseIdx i := by
  unfold RemoveTabAt
  rw [if_pos (show i < m.count from hi)]

/-- Whether the tab at `i` of the current state closes synchronously. -/
def closableAt (m : TabStripModel) (i : Nat) : Bool :=
  ((m.contents_data[i]?).map (fun d => d.contents.closesImmediately)).getD false

theorem closeFold_flag :
    ∀ (indices : List Nat) (m : TabStripModel) (b : Bool),
      (indices.foldl closeStep (m, b)).1 =
        (indices.foldl closeStep (m, true)).1 ∧
      (indices.foldl closeStep (m, b)).2 =
        (b && (indices.foldl closeStep (m, true)).2) := by
  intro indices
  induction indices with
  | nil =>
    intro m b
    exact ⟨rfl, (Bool.and_true b).symm⟩
  | cons i rest ih =>
    intro m b
    cases hsome : m.contents_data[i]? with
    | none =>
      have h1 : ∀ c, closeStep (m, c) i = (m, c) := by
        intro c
        unfold closeStep
        rw [hsome]
      rw [List.foldl_cons, List.foldl_cons, h1, h1]
      exact ih m b
    | some d =>
      by_cases hc : d.contents.closesImmediately = true
      · have h1 : ∀ c, closeStep (m, c) i = (RemoveTabAt m i, c) := by
          intro c
          unfold closeStep
          rw [hsome]
          simp [hc]
        rw [List.foldl_cons, List.foldl_cons, h1, h1]
        exact ih (RemoveTabAt m i) b
      · have h1 : ∀ c, closeStep (m, c) i = (m, false) := by
          intro c
          unfold closeStep
          rw [hsome]
          simp [hc]
        rw [List.foldl_cons, List.foldl_cons, h1, h1]
        refine ⟨rfl, ?_⟩
        rw [(ih m false).2]
        simp

/-- C6: a batch close over descending valid indices reports `true` exactly
when every requested tab closes synchronously, and the resulting sequence is
the original one with exactly the closable requested slots erased — tabs that
did close stay removed even when the overall result is `false`. -/
theorem close_all_or_nothing_report :
    ∀ (idxs : List Nat) (m : TabStripModel),
      idxs.Pairwise (fun a b => b < a) →
      (∀ i ∈ idxs, i < m.contents_data.length) →
      ((InternalCloseTabs m idxs).2 = true ↔
        ∀ i ∈ idxs, closableAt m i = true) ∧
      (InternalCloseTabs m idxs).1.contents_data =
        (idxs.filter (fun i => closableAt m i)).foldl List.eraseIdx
          m.contents_data := by
  intro idxs
  induction idxs with
  | nil =>
    intro m _ _
    exact ⟨by simp [InternalCloseTabs], rfl⟩
  | cons i rest ih =>
    intro m hsorted hvalid
    have hin : i < m.contents_data.length := hvalid i (List.mem_cons_self i rest)
    have hrest_lt : ∀ k ∈ rest, k < i := (List.pairwise_cons.1 hsorted).1
    have hsorted' : rest.Pairwise (fun a b => b < a) :=
      (List.pairwise_cons.1 hsorted).2
    cases hsome2 : m.contents_data[i]? with
    | none =>
      rw [List.getElem?_eq_getElem hin] at hsome2
      exact Option.noConfusion hsome2
    | some d =>
      by_cases hc : d.contents.closesImmediately = true
      · have hstep : closeStep (m, true) i = (RemoveTabAt m i, true) := by
          unfold closeStep
          rw [hsome2]
          simp [hc]
        have hfold : InternalCloseTabs m (i :: rest) =
            InternalCloseTabs (RemoveTabAt m i) rest := by
          unfold InternalCloseTabs
          rw [List.foldl_cons, hstep]
        have hRc : (RemoveTabAt m i).contents_data =
            m.contents_data.eraseIdx i := removeTabAt_contents m i hin
        have hvalid2 : ∀ k ∈ rest, k < (RemoveTabAt m i).contents_data.length := by
          intro k hk
          rw [hRc, List.length_eraseIdx_of_lt hin]
          have h1 := hrest_lt k hk
          omega
        have hpres : ∀ k ∈ rest,
            (RemoveTabAt m i).contents_data[k]? = m.contents_data[k]? := by
          intro k hk
          have h1 := hrest_lt k hk
          have h2 := hvalid2 k hk
          rw [hRc] at h2 ⊢
          rw [List.getElem?_eq_getElem h2,
            List.getElem?_eq_getElem (by omega : k < m.contents_data.length)]
          congr 1
          exact List.getElem_eraseIdx_of_lt _ _ _ _ h1
        have hclos : ∀ k ∈ rest,
            closableAt (RemoveTabAt m i) k = closableAt m k := by
          intro k hk
          unfold closableAt
          rw [hpres k hk]
        obtain ⟨ih1, ih2⟩ := ih (RemoveTabAt m i) hsorted' hvalid2
        constructor
        · rw [hfold, ih1]
          constructor
          · intro hall k hk
            rcases List.mem_cons.1 hk with rfl | hk2
            · unfold closableAt
              rw [hsome2]
              simpa using hc
            · rw [← hclos k hk2]
              exact hall k hk2
          · intro hall k hk
            rw [hclos k hk]
            exact hall k (List.mem_cons_of_mem i hk)
        · rw [hfold, ih2]
          have hfh : (i :: rest).filter (fun k => closableAt m k) =
              i :: rest.filter (fun k => closableAt m k) := by
            rw [List.filter_cons, if_pos (by
              unfold closableAt
              rw [hsome2]
              simpa using hc)]
          rw [hfh, List.foldl_cons, hRc]
          congr 1
          exact List.filter_congr (fun k hk => hclos k hk)
      · have hstep : closeStep (m, true) i = (m, false) := by
          unfold closeStep
          rw [hsome2]
          simp [hc]
        have hfold1 : InternalCloseTabs m (i :: rest) =
            rest.foldl closeStep (m, false) := by
          unfold InternalCloseTabs
          rw [List.foldl_cons, hstep]
        obtain ⟨hflag1, hflag2⟩ := closeFold_flag rest m false
        obtain ⟨ih1, ih2⟩ := ih m hsorted'
          (fun k hk => hvalid k (List.mem_cons_of_mem i hk))
        constructor
        · rw [hfold1]
          constructor
          · intro habs
            rw [hflag2] at habs
            simp at habs
          · intro hall
            exfalso
            have h3 := hall i (List.mem_cons_self i rest)
            unfold closableAt at h3
            rw [hsome2] at h3
            simp at h3
            exact hc h3
        · rw [hfold1, hflag1]
          have h4 : rest.foldl closeStep (m, true) = InternalCloseTabs m rest :=
            rfl
          rw [h4, ih2]
          congr 1
          rw [List.filter_cons, if_neg (by
            unfold closableAt
            rw [hsome2]
            simpa using hc)]

/-- The batch-close scenario state: tabs 0 and 2 close immediately, tab 1
refuses. -/
def wCloseState : TabStripModel :=
  ⟨[wNormRec1, mkTabContentsData ⟨30, false, false⟩, wNormRec2], 2⟩

theorem close_all_or_nothing_report_witness :
    ((InternalCloseTabs wCloseState [2, 1, 0]).2 = true ↔
      ∀ i ∈ ([2, 1, 0] : List Nat), closableAt wCloseState i = true) ∧
    (InternalCloseTabs wCloseState [2, 1, 0]).1.contents_data =
      (([2, 1, 0] : List Nat).filter
        (fun i => closableAt wCloseState i)).foldl List.eraseIdx
        wCloseState.contents_data :=
  close_all_or_nothing_report [2, 1, 0] wCloseState (by decide) (by decide)

/-! ## C9: GetNodesFromArguments is all-or-nothing -/

theorem getNodesLoop_spec (getNodeByID : Int → Option Nat)
    (parse : String → Option Int) :
    ∀ ids : List BmValue,
      ((getNodesLoop getNodeByID parse ids).isSome ↔
        ∀ v ∈ ids, ∃ s id n, v = BmValue.str s ∧ parse s = some id ∧
          getNodeByID id = some n) ∧
      (∀ ns, getNodesLoop getNodeByID parse ids = some ns →
        List.Forall₂ (fun v n => ∃ s id, v = BmValue.str s ∧
          parse s = some id ∧ getNodeByID id = some n) ids ns) := by
  intro ids
  induction ids with
  | nil =>
    refine ⟨by simp [getNodesLoop], ?_⟩
    intro ns hns
    simp only [getNodesLoop, Option.some.injEq] at hns
    rw [← hns]
    exact List.Forall₂.nil
  | cons v rest ih =>
    obtain ⟨ih1, ih2⟩ := ih
    cases v with
    | str s =>
      cases hp : parse s with
      | none =>
        have hval : getNodesLoop getNodeByID parse (BmValue.str s :: rest) =
            none := by
          simp [getNodesLoop, hp]
        refine ⟨⟨fun habs => absurd (hval ▸ habs) (by simp), fun hall => ?_⟩,
          fun ns hns => Option.noConfusion (hval ▸ hns)⟩
        exfalso
        obtain ⟨s2, id, n, hveq, hp2, _⟩ :=
          hall _ (List.mem_cons_self (BmValue.str s) rest)
        cases hveq
        rw [hp] at hp2
        exact Option.noConfusion hp2
      | some id =>
        cases hn : getNodeByID id with
        | none =>
          have hval : getNodesLoop getNodeByID parse (BmValue.str s :: rest) =
              none := by
            simp [getNodesLoop, hp, hn]
          refine ⟨⟨fun habs => absurd (hval ▸ habs) (by simp), fun hall => ?_⟩,
            fun ns hns => Option.noConfusion (hval ▸ hns)⟩
          exfalso
          obtain ⟨s2, id2, n, hveq, hp2, hn2⟩ :=
            hall _ (List.mem_cons_self (BmValue.str s) rest)
          cases hveq
          rw [hp] at hp2
          cases Option.some.inj hp2
          rw [hn] at hn2
          exact Option.noConfusion hn2
        | some node =>
          have hval : getNodesLoop getNodeByID parse (BmValue.str s :: rest) =
              (getNodesLoop getNodeByID parse rest).map
                (fun ns => node :: ns) := by
            simp [getNodesLoop, hp, hn]
          constructor
          · rw [hval]
            simp only [Option.isSome_map']
            rw [ih1]
            constructor
            · intro hrest v hv
              rcases List.mem_cons.1 hv with rfl | hv2
              · exact ⟨s, id, node, rfl, hp, hn⟩
              · exact hrest v hv2
            · intro hall v hv
              exact hall v (List.mem_cons_of_mem _ hv)
          · intro ns hns
            rw [hval] at hns
            obtain ⟨ns2, hns2, hmap⟩ := Option.map_eq_some'.1 hns
            rw [← hmap]
            exact List.Forall₂.cons ⟨s, id, rfl, hp, hn⟩ (ih2 ns2 hns2)
    | list l =>
      have hval : getNodesLoop getNodeByID parse (BmValue.list l :: rest) =
          none := by
        simp [getNodesLoop]
      refine ⟨⟨fun habs => absurd (hval ▸ habs) (by simp), fun hall => ?_⟩,
        fun ns hns => Option.noConfusion (hval ▸ hns)⟩
      exfalso
      obtain ⟨s2, id, n, hveq, _, _⟩ :=
        hall _ (List.mem_cons_self (BmValue.list l) rest)
      exact BmValue.noConfusion hveq
    | other =>
      have hval : getNodesLoop getNodeByID parse (BmValue.other :: rest) =
          none := by
        simp [getNodesLoop]
      refine ⟨⟨fun habs => absurd (hval ▸ habs) (by simp), fun hall => ?_⟩,
        fun ns hns => Option.noConfusion (hval ▸ hns)⟩
      exfalso
      obtain ⟨s2, id, n, hveq, _, _⟩ :=
        hall _ (List.mem_cons_self BmValue.other rest)
      exact BmValue.noConfusion hveq

/-- C9: `GetNodesFromArguments` is all-or-nothing: it fails (`none`, i.e.
returns `false`) when the first argument is not a list, when the id list is
empty, or when any single id fails to be a string, to parse as a 64-bit
integer, or to resolve to a bookmark node; it succeeds exactly when every id
resolves, and then the output vector pairs the ids with their resolved nodes
in argument order. -/
theorem getNodes_all_or_nothing (getNodeByID : Int → Option Nat)
    (parse : String → Option Int) (args : List BmValue) :
    (∀ ids, getList0 args = some ids →
      ((GetNodesFromArguments getNodeByID parse args).isSome ↔
        ids ≠ [] ∧ ∀ v ∈ ids, ∃ s id n, v = BmValue.str s ∧
          parse s = some id ∧ getNodeByID id = some n) ∧
      ∀ ns, GetNodesFromArguments getNodeByID parse args = some ns →
        List.Forall₂ (fun v n => ∃ s id, v = BmValue.str s ∧
          parse s = some id ∧ getNodeByID id = some n) ids ns) ∧
    (getList0 args = none →
      GetNodesFromArguments getNodeByID parse args = none) := by
  constructor
  · intro ids hids
    have hunf : GetNodesFromArguments getNodeByID parse args =
        (if ids.length = 0 then none
         else getNodesLoop getNodeByID parse ids) := by
      unfold GetNodesFromArguments
      rw [hids]
    by_cases hnil : ids.length = 0
    · have hids_nil : ids = [] := List.length_eq_zero.1 hnil
      constructor
      · rw [hunf, if_pos hnil]
        simp [hids_nil]
      · intro ns hns
        rw [hunf, if_pos hnil] at hns
        exact Option.noConfusion hns
    · constructor
      · rw [hunf, if_neg hnil,
          (getNodesLoop_spec getNodeByID parse ids).1]
        constructor
        · intro h2
          refine ⟨?_, h2⟩
          intro hc
          rw [hc] at hnil
          exact hnil rfl
        · exact fun h2 => h2.2
      · intro ns hns
        rw [hunf, if_neg hnil] at hns
        exact (getNodesLoop_spec getNodeByID parse ids).2 ns hns
  · intro hnone
    unfold GetNodesFromArguments
    rw [hnone]

theorem getNodes_all_or_nothing_witness :
    GetNodesFromArguments (fun _ => none) (fun _ => none) [BmValue.other] =
      none :=
  (getNodes_all_or_nothing (fun _ => none) (fun _ => none) [BmValue.other]).2
    rfl

end ChromiumModel
